import Mathlib

/-!
Verification of the Neural-HMM / AlignTTS alignment core of this repository.

Log-domain tensor entries are modelled as values in the extended reals
without plus-infinity, `WithBot Real`: the code stores ordinary floats and
uses the value minus-infinity (here the bottom element) produced by
masked_fill and by log-sum-exp over empty support.  Addition on this
carrier agrees with IEEE addition on these values (bottom absorbs).
Vectors and matrices are total functions out of Fin types; batch, time and
state axes are explicit arguments.
-/

/-- Log-space scalar: a real number or minus-infinity. -/
abbrev LogR := WithBot ℝ

/-- Value of exp at a log-space scalar; exp of minus-infinity is zero. -/
noncomputable def expB : LogR → ℝ := WithBot.recBotCoe 0 Real.exp

/-- True exactly on the minus-infinity element. -/
def isBot : LogR → Bool := WithBot.recBotCoe true (fun _ => false)

/-- Log-sum-exp of two log-space values with the minus-infinity guard used by
the library log-sum-exp (a row that is all minus-infinity stays
minus-infinity instead of going through log of zero). -/
noncomputable def lse2 (a b : LogR) : LogR :=
  if isBot a && isBot b then ⊥ else ((Real.log (expB a + expB b) : ℝ) : LogR)

/-- Log-sum-exp across a vector of log-space values, with the same guard:
an all-minus-infinity row yields minus-infinity (the behaviour of
torch.logsumexp on such rows). -/
noncomputable def lseVec {n : ℕ} (v : Fin n → LogR) : LogR :=
  if (List.ofFn fun i => isBot (v i)).all id then ⊥
  else ((Real.log (∑ i, expB (v i)) : ℝ) : LogR)

/-- Logistic sigmoid, as computed by torch.sigmoid. -/
noncomputable def sigmoid (x : ℝ) : ℝ := 1 / (1 + Real.exp (-x))

/-- Modelled from the spec: the helper log_clamped of TTS.tts.utils.helpers is
not under src; section 4.2 of the spec writes the quantity it computes as a
plain logarithm of the (strictly positive) sigmoid probabilities, so it is
modelled as the real logarithm. -/
noncomputable def log_clamped (x : ℝ) : ℝ := Real.log x

/-- Modelled from the spec: the helper sequence_mask of TTS.tts.utils.helpers
is not under src; it returns the boolean mask that is true exactly at the
positions strictly before the valid length. -/
def sequence_mask (len j : ℕ) : Bool := j < len

theorem sequence_mask_iff (len j : ℕ) : sequence_mask len j = true ↔ j < len := by
  simp [sequence_mask]

theorem expB_bot : expB ⊥ = 0 := rfl

theorem expB_coe (r : ℝ) : expB (r : LogR) = Real.exp r := rfl

theorem expB_nonneg (x : LogR) : 0 ≤ expB x := by
  induction x using WithBot.recBotCoe with
  | bot => simp [expB_bot]
  | coe r => exact le_of_lt (by simpa [expB_coe] using Real.exp_pos r)

theorem expB_add_coe (x : LogR) (c : ℝ) :
    expB (x + (c : LogR)) = expB x * Real.exp c := by
  induction x using WithBot.recBotCoe with
  | bot => simp [expB_bot]
  | coe r =>
      have : ((r : LogR) + (c : LogR)) = ((r + c : ℝ) : LogR) := by
        exact_mod_cast rfl
      rw [this, expB_coe, expB_coe, Real.exp_add]

theorem isBot_coe (r : ℝ) : isBot (r : LogR) = false := rfl

theorem lse2_coe_bot (r : ℝ) : lse2 (r : LogR) ⊥ = (r : LogR) := by
  simp [lse2, isBot_coe, expB_coe, expB_bot, Real.log_exp]

theorem sigmoid_pos (x : ℝ) : 0 < sigmoid x := by
  have h : 0 < 1 + Real.exp (-x) := by positivity
  exact div_pos one_pos h

theorem sigmoid_le_one (x : ℝ) : sigmoid x ≤ 1 := by
  have h : 0 < 1 + Real.exp (-x) := by positivity
  rw [sigmoid, div_le_one h]
  have := (Real.exp_pos (-x)).le
  linarith

theorem sigmoid_strictMono : StrictMono sigmoid := by
  intro a b hab
  have hda : 0 < 1 + Real.exp (-a) := by positivity
  have hdb : 0 < 1 + Real.exp (-b) := by positivity
  have hexp : Real.exp (-b) < Real.exp (-a) := Real.exp_lt_exp.2 (by linarith)
  have hlt : 1 + Real.exp (-b) < 1 + Real.exp (-a) := by linarith
  exact one_div_lt_one_div_of_lt hdb hlt

theorem exp_log_clamped_sigmoid (x : ℝ) :
    Real.exp (log_clamped (sigmoid x)) = sigmoid x :=
  Real.exp_log (sigmoid_pos x)

namespace TransitionModel

/-- Embedding of TransitionModel.forward of
src/TTS/tts/layers/neural_hmm/hmm.py, the per-row term called leaving before
the roll: previous scaled log-alpha plus the log of the transition-forward
probability sigmoid of the logit. -/
noncomputable def leaving_unrolled {n : ℕ} (log_alpha_scaled : Fin n → LogR)
    (transition_vector : Fin n → ℝ) : Fin n → LogR :=
  fun i => log_alpha_scaled i + ((log_clamped (sigmoid (transition_vector i)) : ℝ) : LogR)

/-- Index one to the left of i, for the roll by one along the state axis. -/
def shiftIdx {n : ℕ} (i : Fin n) : Fin n :=
  ⟨(i : ℕ) - 1, lt_of_le_of_lt (Nat.pred_le _) i.isLt⟩

/-- The leaving term after the circular roll by one along the state axis and
the fill of state zero with minus-infinity, as the code performs it. -/
noncomputable def leaving {n : ℕ} (log_alpha_scaled : Fin n → LogR)
    (transition_vector : Fin n → ℝ) : Fin n → LogR :=
  fun i =>
    if (i : ℕ) = 0 then ⊥
    else leaving_unrolled log_alpha_scaled transition_vector (shiftIdx i)

/-- The staying term: previous scaled log-alpha plus the log of the staying
probability sigmoid of the negated logit. -/
noncomputable def staying {n : ℕ} (log_alpha_scaled : Fin n → LogR)
    (transition_vector : Fin n → ℝ) : Fin n → LogR :=
  fun i => log_alpha_scaled i + ((log_clamped (sigmoid (-transition_vector i)) : ℝ) : LogR)

/-- Embedding of TransitionModel.forward (src/TTS/tts/layers/neural_hmm/hmm.py
lines 378-409): staying and leaving terms are combined with log-sum-exp and
states at or beyond the valid length are filled with minus-infinity. -/
noncomputable def forward {n : ℕ} (log_alpha_scaled : Fin n → LogR)
    (transition_vector : Fin n → ℝ) (inputs_len : ℕ) : Fin n → LogR :=
  fun i =>
    if sequence_mask inputs_len i then
      lse2 (staying log_alpha_scaled transition_vector i)
        (leaving log_alpha_scaled transition_vector i)
    else ⊥

/-- The spec sentence of claim C3, written as stated there: the staying term
uses the sigmoid of the positive logit and the advancing term the sigmoid of
the negated logit. -/
noncomputable def forward_as_stated {n : ℕ} (log_alpha_scaled : Fin n → LogR)
    (transition_vector : Fin n → ℝ) (inputs_len : ℕ) : Fin n → LogR :=
  fun i =>
    if sequence_mask inputs_len i then
      lse2 (log_alpha_scaled i + ((log_clamped (sigmoid (transition_vector i)) : ℝ) : LogR))
        (if (i : ℕ) = 0 then ⊥
         else log_alpha_scaled (shiftIdx i) +
           ((log_clamped (sigmoid (-transition_vector (shiftIdx i))) : ℝ) : LogR))
    else ⊥

/-- The amended spec sentence of claim C3 with the sign convention of the
code: the staying term uses the sigmoid of the negated logit, the advancing
term into state i uses the contribution of state i-1 with the sigmoid of the
positive logit of state i-1, minus-infinity into state zero. -/
noncomputable def forward_as_amended {n : ℕ} (log_alpha_scaled : Fin n → LogR)
    (transition_vector : Fin n → ℝ) (inputs_len : ℕ) : Fin n → LogR :=
  fun i =>
    if sequence_mask inputs_len i then
      lse2 (log_alpha_scaled i + ((log_clamped (sigmoid (-transition_vector i)) : ℝ) : LogR))
        (if (i : ℕ) = 0 then ⊥
         else log_alpha_scaled (shiftIdx i) +
           ((log_clamped (sigmoid (transition_vector (shiftIdx i))) : ℝ) : LogR))
    else ⊥

end TransitionModel

namespace TransitionModel

theorem expB_staying {n : ℕ} (prev : Fin n → LogR) (tv : Fin n → ℝ) (i : Fin n) :
    expB (staying prev tv i) = expB (prev i) * sigmoid (-tv i) := by
  rw [staying, expB_add_coe, exp_log_clamped_sigmoid]

theorem expB_leaving_unrolled {n : ℕ} (prev : Fin n → LogR) (tv : Fin n → ℝ) (i : Fin n) :
    expB (leaving_unrolled prev tv i) = expB (prev i) * sigmoid (tv i) := by
  rw [leaving_unrolled, expB_add_coe, exp_log_clamped_sigmoid]

theorem lse2_le_zero {a b : LogR} (h : expB a + expB b ≤ 1) : lse2 a b ≤ 0 := by
  unfold lse2
  split
  · exact bot_le
  · have h0 : (0 : ℝ) ≤ expB a + expB b := add_nonneg (expB_nonneg a) (expB_nonneg b)
    rw [← WithBot.coe_zero]
    exact WithBot.coe_le_coe.2 (Real.log_nonpos h0 h)

end TransitionModel

/-- C3 counterexample: on the concrete input with one state, previous scaled
log-probability zero and transition logit one, TransitionModel.forward does
not compute the stay term with log of sigmoid of the positive logit as the
claim states: the code pairs the stay term with the sigmoid of the negated
logit. -/
theorem TransitionModel.stated_claim_counterexample :
    TransitionModel.forward (fun _ : Fin 1 => ((0 : ℝ) : LogR)) (fun _ => (1 : ℝ)) 1 ⟨0, one_pos⟩ ≠
      TransitionModel.forward_as_stated (fun _ : Fin 1 => ((0 : ℝ) : LogR)) (fun _ => (1 : ℝ)) 1
        ⟨0, one_pos⟩ := by
  have hL :
      TransitionModel.forward (fun _ : Fin 1 => ((0 : ℝ) : LogR)) (fun _ => (1 : ℝ)) 1 ⟨0, one_pos⟩ =
        ((log_clamped (sigmoid (-1)) : ℝ) : LogR) := by
    rw [TransitionModel.forward]
    have hmask : sequence_mask 1 ((⟨0, one_pos⟩ : Fin 1) : ℕ) = true := rfl
    rw [if_pos hmask]
    have hleav :
        TransitionModel.leaving (fun _ : Fin 1 => ((0 : ℝ) : LogR)) (fun _ => (1 : ℝ)) ⟨0, one_pos⟩ = ⊥ := by
      simp [TransitionModel.leaving]
    rw [hleav, TransitionModel.staying]
    rw [show ((0 : ℝ) : LogR) + ((log_clamped (sigmoid (-(1 : ℝ))) : ℝ) : LogR) =
        ((log_clamped (sigmoid (-(1 : ℝ))) : ℝ) : LogR) by
      rw [← WithBot.coe_add, zero_add]]
    exact lse2_coe_bot _
  have hR :
      TransitionModel.forward_as_stated (fun _ : Fin 1 => ((0 : ℝ) : LogR)) (fun _ => (1 : ℝ)) 1
          ⟨0, one_pos⟩ =
        ((log_clamped (sigmoid 1) : ℝ) : LogR) := by
    rw [TransitionModel.forward_as_stated]
    have hmask : sequence_mask 1 ((⟨0, one_pos⟩ : Fin 1) : ℕ) = true := rfl
    rw [if_pos hmask, if_pos rfl]
    rw [show ((0 : ℝ) : LogR) + ((log_clamped (sigmoid (1 : ℝ)) : ℝ) : LogR) =
        ((log_clamped (sigmoid (1 : ℝ)) : ℝ) : LogR) by
      rw [← WithBot.coe_add, zero_add]]
    exact lse2_coe_bot _
  rw [hL, hR]
  intro hcontra
  have hlt : log_clamped (sigmoid (-1)) < log_clamped (sigmoid 1) := by
    unfold log_clamped
    exact Real.log_lt_log (sigmoid_pos (-1)) (sigmoid_strictMono (by norm_num))
  exact absurd (WithBot.coe_inj.1 hcontra) (ne_of_lt hlt)

/-- C3 (amended): for every previous scaled log-state-probability row,
transition-logit vector and valid-state length, TransitionModel.forward
computes the stay log-probability of state i as the previous log-probability
plus log of sigmoid of the negated logit of state i, the advance
log-probability of state i as the previous log-probability of state i-1 plus
log of sigmoid of the positive logit of state i-1 (minus-infinity into state
zero), combines the two by log-sum-exp, and fills states at or beyond the
valid length with minus-infinity. -/
theorem TransitionModel.forward_amended {n : ℕ} (prev : Fin n → LogR) (tv : Fin n → ℝ)
    (len : ℕ) (i : Fin n) :
    TransitionModel.forward prev tv len i = TransitionModel.forward_as_amended prev tv len i := rfl

/-- C6: the advance term entering state zero is always minus-infinity, and
every entry of the tensor returned by TransitionModel.forward at a state
index at or beyond the valid state length is minus-infinity. -/
theorem TransitionModel.advance_into_first_state_bot {n : ℕ} (prev : Fin n → LogR)
    (tv : Fin n → ℝ) (hn : 0 < n) (len : ℕ) (i : Fin n) (hi : len ≤ (i : ℕ)) :
    TransitionModel.leaving prev tv ⟨0, hn⟩ = ⊥ ∧ TransitionModel.forward prev tv len i = ⊥ := by
  constructor
  · simp [TransitionModel.leaving]
  · have hmask : sequence_mask len ((i : Fin n) : ℕ) = false := by
      simp [sequence_mask, Nat.not_lt.2 hi]
    rw [TransitionModel.forward, if_neg (by simp [hmask])]

/-- Witness for C6 at a concrete input with two states and valid length one. -/
theorem TransitionModel.advance_into_first_state_bot_witness :
    TransitionModel.leaving (fun _ : Fin 2 => ((0 : ℝ) : LogR)) (fun _ => (0 : ℝ)) ⟨0, two_pos⟩ = ⊥ ∧
      TransitionModel.forward (fun _ : Fin 2 => ((0 : ℝ) : LogR)) (fun _ => (0 : ℝ)) 1 ⟨1, one_lt_two⟩ = ⊥ :=
  TransitionModel.advance_into_first_state_bot _ _ two_pos 1 ⟨1, one_lt_two⟩ (by norm_num)

/-- C7: when the previous scaled log-alpha row has exponentials summing to at
most one over the valid states, every entry of the row returned by
TransitionModel.forward at a valid state index is at most zero, a valid
log-probability. -/
theorem TransitionModel.forward_le_zero {n : ℕ} (prev : Fin n → LogR) (tv : Fin n → ℝ)
    (len : ℕ)
    (h : ∑ j in Finset.univ.filter (fun j : Fin n => (j : ℕ) < len), expB (prev j) ≤ 1) :
    ∀ i : Fin n, (i : ℕ) < len → TransitionModel.forward prev tv len i ≤ 0 := by
  intro i hi
  have hnonneg : ∀ j ∈ Finset.univ.filter (fun j : Fin n => (j : ℕ) < len), 0 ≤ expB (prev j) :=
    fun j _ => expB_nonneg (prev j)
  have hmask : sequence_mask len ((i : Fin n) : ℕ) = true := (sequence_mask_iff _ _).2 hi
  rw [TransitionModel.forward, if_pos (by simp [hmask])]
  apply TransitionModel.lse2_le_zero
  have hstay : expB (TransitionModel.staying prev tv i) ≤ expB (prev i) := by
    rw [TransitionModel.expB_staying]
    exact mul_le_of_le_one_right (expB_nonneg _) (sigmoid_le_one _)
  have himem : i ∈ Finset.univ.filter (fun j : Fin n => (j : ℕ) < len) := by
    simp [Finset.mem_filter, hi]
  by_cases hz : (i : ℕ) = 0
  · have hleav : expB (TransitionModel.leaving prev tv i) = 0 := by
      rw [TransitionModel.leaving, if_pos hz, expB_bot]
    have hsingle : expB (prev i) ≤ ∑ j in Finset.univ.filter (fun j : Fin n => (j : ℕ) < len),
        expB (prev j) := Finset.single_le_sum hnonneg himem
    rw [hleav]
    linarith
  · have hleav : expB (TransitionModel.leaving prev tv i) ≤ expB (prev (TransitionModel.shiftIdx i)) := by
      rw [TransitionModel.leaving, if_neg hz, TransitionModel.expB_leaving_unrolled]
      exact mul_le_of_le_one_right (expB_nonneg _) (sigmoid_le_one _)
    have hsmem : TransitionModel.shiftIdx i ∈ Finset.univ.filter (fun j : Fin n => (j : ℕ) < len) := by
      have : ((TransitionModel.shiftIdx i : Fin n) : ℕ) < len :=
        lt_of_le_of_lt (Nat.pred_le _) hi
      simp [Finset.mem_filter, this]
    have hne : i ≠ TransitionModel.shiftIdx i := by
      intro hcontra
      have hval : (i : ℕ) = (i : ℕ) - 1 := congrArg Fin.val hcontra
      omega
    have hpair : ({i, TransitionModel.shiftIdx i} : Finset (Fin n)) ⊆
        Finset.univ.filter (fun j : Fin n => (j : ℕ) < len) := by
      intro j hj
      rcases Finset.mem_insert.1 hj with hj | hj
      · exact hj ▸ himem
      · exact (Finset.mem_singleton.1 hj) ▸ hsmem
    have hsum2 : expB (prev i) + expB (prev (TransitionModel.shiftIdx i)) ≤
        ∑ j in Finset.univ.filter (fun j : Fin n => (j : ℕ) < len), expB (prev j) := by
      have := Finset.sum_le_sum_of_subset_of_nonneg hpair
        (fun j _ _ => expB_nonneg (prev j))
      rwa [Finset.sum_pair hne] at this
    linarith

/-- Witness for C7 at a concrete input with one state whose previous
log-probability is minus-infinity (exponentials sum to zero). -/
theorem TransitionModel.forward_le_zero_witness :
    TransitionModel.forward (fun _ : Fin 1 => (⊥ : LogR)) (fun _ => (0 : ℝ)) 1 ⟨0, one_pos⟩ ≤ 0 :=
  TransitionModel.forward_le_zero (fun _ : Fin 1 => (⊥ : LogR)) (fun _ => (0 : ℝ)) 1
    (by simp [expB_bot]) ⟨0, one_pos⟩ one_pos

/-- Log density of a scalar Gaussian as torch.distributions.Normal.log_prob
computes it. -/
noncomputable def normal_log_prob (mu sd x : ℝ) : ℝ :=
  -((x - mu) ^ 2 / (2 * sd ^ 2)) - Real.log sd - Real.log (Real.sqrt (2 * Real.pi))

namespace EmissionModel

/-- Embedding of EmissionModel.forward (src/TTS/tts/layers/neural_hmm/hmm.py
lines 422-445) with the state mask applied per state as the docstring
describes: the code multiplies the (batch, states, features) log densities by
the (batch, states) mask without unsqueezing it along the feature axis, which
raises a broadcasting error at run time, so the intended per-state mask is
modelled here. -/
noncomputable def forward {S F : ℕ} (x_t : Fin F → ℝ) (means stds : Fin S → Fin F → ℝ)
    (state_lengths : ℕ) : Fin S → ℝ :=
  fun i => ∑ f, normal_log_prob (means i f) (stds i f) (x_t f) *
    (if sequence_mask state_lengths i then (1 : ℝ) else 0)

end EmissionModel

/-- C8: the emission log-likelihood of a state is the log density of the
observation under the per-state independent Gaussian summed across feature
dimensions, and every state at or beyond the valid state length contributes
exactly zero. -/
theorem EmissionModel.forward_masked_gaussian {S F : ℕ} (x_t : Fin F → ℝ)
    (means stds : Fin S → Fin F → ℝ) (state_lengths : ℕ) (i : Fin S) :
    EmissionModel.forward x_t means stds state_lengths i =
      if (i : ℕ) < state_lengths then
        ∑ f, normal_log_prob (means i f) (stds i f) (x_t f)
      else 0 := by
  by_cases h : (i : ℕ) < state_lengths
  · simp [EmissionModel.forward, sequence_mask, h]
  · simp [EmissionModel.forward, sequence_mask, h]

namespace HMM

/-- Embedding of HMM._mask_lengths (src/TTS/tts/layers/neural_hmm/hmm.py
lines 129-144) with the argument binding of its docstring: the call at line
121 passes three arguments to the two-parameter method, a TypeError at run
time, so the intended binding (valid target lengths plus the scaling
constants) is modelled.  The scaling-constant entries are the finite
log-sum-exp values, modelled as reals, multiplied by the boolean sequence
mask of the valid target lengths. -/
def mask_lengths {B T : ℕ} (mel_lens : Fin B → ℕ) (log_c : Fin B → Fin T → ℝ) :
    Fin B → Fin T → ℝ :=
  fun b t => log_c b t * (if sequence_mask (mel_lens b) t then 1 else 0)

/-- IEEE product of a log-space tensor entry with a boolean mask entry (the
mask holding one or zero): times one the entry is unchanged (one times
minus-infinity is minus-infinity), a finite entry times zero is zero, and a
minus-infinity entry times zero is NaN, modelled as none. -/
def ieee_mask_mul (x : LogR) (m : Bool) : Option LogR :=
  if m then some x
  else WithBot.recBotCoe none (fun _ => some ((0 : ℝ) : LogR)) x

/-- The companion masking of the scaled log-alpha tensor in HMM._mask_lengths,
the same mask broadcast along the state axis.  The tensor holds log-space
values including minus-infinity: the transition model fills states at or
beyond the valid state length with minus-infinity at every timestep, and
states unreachable from the single initial state stay at minus-infinity, so
minus-infinity entries generically sit inside the masked region, where the
IEEE mask product turns them into NaN rather than zero. -/
def mask_lengths_alpha {B T S : ℕ} (mel_lens : Fin B → ℕ)
    (log_alpha_scaled : Fin B → Fin T → Fin S → LogR) : Fin B → Fin T → Fin S → Option LogR :=
  fun b t s => ieee_mask_mul (log_alpha_scaled b t s) (sequence_mask (mel_lens b) t)

/-- The final assembly of HMM.forward (lines 121-127): the masked scaling
constants summed over the time axis plus the per-item absorption-state
correction. -/
noncomputable def log_probs {B T : ℕ} (mel_lens : Fin B → ℕ) (log_c : Fin B → Fin T → ℝ)
    (sum_final_log_c : Fin B → LogR) : Fin B → LogR :=
  fun b => ((∑ t, mask_lengths mel_lens log_c b t : ℝ) : LogR) + sum_final_log_c b

end HMM

/-- C1: the per-item value assembled at the end of HMM.forward equals the sum
of the scaling constants over that item's valid timesteps plus its
absorption-state correction. -/
theorem HMM.forward_returns_masked_sum {B T : ℕ} (mel_lens : Fin B → ℕ)
    (log_c : Fin B → Fin T → ℝ) (sum_final_log_c : Fin B → LogR) (b : Fin B) :
    HMM.log_probs mel_lens log_c sum_final_log_c b =
      ((∑ t in Finset.univ.filter (fun t : Fin T => (t : ℕ) < mel_lens b), log_c b t : ℝ) : LogR) +
        sum_final_log_c b := by
  rw [HMM.log_probs, Finset.sum_filter]
  congr 2
  apply Finset.sum_congr rfl
  intro t _
  by_cases h : (t : ℕ) < mel_lens b
  · simp [HMM.mask_lengths, sequence_mask, h]
  · simp [HMM.mask_lengths, sequence_mask, h]

/-- C2 counterexample: a scaled log-alpha entry holding minus-infinity at a
masked timestep (valid target length zero, as arises for any state at or
beyond the valid state length or unreachable at that timestep) is not zero
after the masking step: the IEEE product of minus-infinity with the zero
mask is NaN. -/
theorem HMM.mask_lengths_alpha_counterexample :
    HMM.mask_lengths_alpha (fun _ : Fin 1 => 0) (fun _ _ _ : Fin 1 => (⊥ : LogR)) ⟨0, one_pos⟩
        ⟨0, one_pos⟩ ⟨0, one_pos⟩ ≠ some ((0 : ℝ) : LogR) := by
  simp [HMM.mask_lengths_alpha, HMM.ieee_mask_mul, sequence_mask]

/-- C2 (amended): after the masking step, for every batch item every
scaling-constant entry at a timestep at or beyond that item's valid target
length is exactly zero, every finite scaled log-alpha entry there is exactly
zero, and every minus-infinity scaled log-alpha entry there becomes NaN
under the mask product instead of zero. -/
theorem HMM.mask_lengths_zero_amended {B T S : ℕ} (mel_lens : Fin B → ℕ)
    (log_c : Fin B → Fin T → ℝ) (log_alpha_scaled : Fin B → Fin T → Fin S → LogR)
    (b : Fin B) (t : Fin T) (s : Fin S) (h : mel_lens b ≤ (t : ℕ)) :
    HMM.mask_lengths mel_lens log_c b t = 0 ∧
      (log_alpha_scaled b t s ≠ ⊥ →
        HMM.mask_lengths_alpha mel_lens log_alpha_scaled b t s = some ((0 : ℝ) : LogR)) ∧
      (log_alpha_scaled b t s = ⊥ →
        HMM.mask_lengths_alpha mel_lens log_alpha_scaled b t s = none) := by
  have hmask : sequence_mask (mel_lens b) ((t : Fin T) : ℕ) = false := by
    simp [sequence_mask, Nat.not_lt.2 h]
  refine ⟨by simp [HMM.mask_lengths, hmask], ?_, ?_⟩
  · intro hfin
    rw [HMM.mask_lengths_alpha, HMM.ieee_mask_mul, hmask, if_neg (by simp)]
    obtain ⟨r, hr⟩ := WithBot.ne_bot_iff_exists.1 hfin
    rw [← hr]
    rfl
  · intro hbot
    rw [HMM.mask_lengths_alpha, HMM.ieee_mask_mul, hmask, if_neg (by simp), hbot]
    rfl

/-- Witness for the amended C2 at a concrete batch with valid length zero and
a finite scaled log-alpha entry. -/
theorem HMM.mask_lengths_zero_amended_witness :
    HMM.mask_lengths (fun _ : Fin 1 => 0) (fun _ _ : Fin 1 => (5 : ℝ)) ⟨0, one_pos⟩ ⟨0, one_pos⟩ = 0 ∧
      ((fun _ _ _ : Fin 1 => ((7 : ℝ) : LogR)) ⟨0, one_pos⟩ ⟨0, one_pos⟩ ⟨0, one_pos⟩ ≠ ⊥ →
        HMM.mask_lengths_alpha (fun _ : Fin 1 => 0) (fun _ _ _ : Fin 1 => ((7 : ℝ) : LogR))
          ⟨0, one_pos⟩ ⟨0, one_pos⟩ ⟨0, one_pos⟩ = some ((0 : ℝ) : LogR)) ∧
      ((fun _ _ _ : Fin 1 => ((7 : ℝ) : LogR)) ⟨0, one_pos⟩ ⟨0, one_pos⟩ ⟨0, one_pos⟩ = ⊥ →
        HMM.mask_lengths_alpha (fun _ : Fin 1 => 0) (fun _ _ _ : Fin 1 => ((7 : ℝ) : LogR))
          ⟨0, one_pos⟩ ⟨0, one_pos⟩ ⟨0, one_pos⟩ = none) :=
  HMM.mask_lengths_zero_amended (fun _ : Fin 1 => 0) (fun _ _ : Fin 1 => (5 : ℝ))
    (fun _ _ _ : Fin 1 => ((7 : ℝ) : LogR)) ⟨0, one_pos⟩ ⟨0, one_pos⟩ ⟨0, one_pos⟩ (by norm_num)

theorem lseVec_eq_bot {n : ℕ} (v : Fin n → LogR) (h : ∀ i, v i = ⊥) : lseVec v = ⊥ := by
  rw [lseVec, if_pos]
  rw [List.all_eq_true]
  intro x hx
  rw [List.mem_ofFn] at hx
  obtain ⟨i, hi⟩ := hx
  simp only [← hi, h i]
  rfl

namespace HMM

/-- Embedding of the combined absorption tensor built inside
HMM.get_absorption_state_scaling_factor (src/TTS/tts/layers/neural_hmm/hmm.py
lines 248-269) for one batch item: the gathered last-valid-timestep scaled
log-alpha row filled with minus-infinity beyond the valid state length, plus
the log transition probability filled with minus-infinity at every state
index other than the last valid one (torch integer arithmetic on the lengths
is modelled with signed integers, so a zero valid length masks every state). -/
noncomputable def final_log_c {N : ℕ} (last_log_alpha_scaled : Fin N → LogR)
    (last_transition_vector : Fin N → ℝ) (inputs_len : ℕ) : Fin N → LogR :=
  fun j =>
    (if sequence_mask inputs_len j then last_log_alpha_scaled j else ⊥) +
      (if ((j : ℕ) : ℤ) = (inputs_len : ℤ) - 1 then
        ((log_clamped (sigmoid (last_transition_vector j)) : ℝ) : LogR)
      else ⊥)

/-- Embedding of HMM.get_absorption_state_scaling_factor (lines 227-275) for
one batch item: log-sum-exp across states of the combined absorption tensor. -/
noncomputable def get_absorption_state_scaling_factor {N : ℕ}
    (last_log_alpha_scaled : Fin N → LogR) (last_transition_vector : Fin N → ℝ)
    (inputs_len : ℕ) : LogR :=
  lseVec (final_log_c last_log_alpha_scaled last_transition_vector inputs_len)

end HMM

/-- C9: when the combined absorption tensor of a batch item is
minus-infinity at every state, HMM.get_absorption_state_scaling_factor
returns minus-infinity for that item, and adding it to the (finite) summed
scaling constants of HMM.forward keeps the returned log-probability at
minus-infinity: the value propagates instead of an error being raised or the
value being replaced. -/
theorem HMM.absorption_all_bot_propagates {N : ℕ} (last_log_alpha_scaled : Fin N → LogR)
    (last_transition_vector : Fin N → ℝ) (inputs_len : ℕ) (s : ℝ)
    (h : ∀ j, HMM.final_log_c last_log_alpha_scaled last_transition_vector inputs_len j = ⊥) :
    HMM.get_absorption_state_scaling_factor last_log_alpha_scaled last_transition_vector
        inputs_len = ⊥ ∧
      (s : LogR) + HMM.get_absorption_state_scaling_factor last_log_alpha_scaled
        last_transition_vector inputs_len = ⊥ := by
  have hb : HMM.get_absorption_state_scaling_factor last_log_alpha_scaled
      last_transition_vector inputs_len = ⊥ :=
    lseVec_eq_bot _ h
  exact ⟨hb, by rw [hb, WithBot.add_bot]⟩

/-- Witness for C9: with a single state and valid state length zero no state
satisfies the last-valid-transition mask, the combined tensor is all
minus-infinity, and the factor and the resulting log-probability are
minus-infinity. -/
theorem HMM.absorption_all_bot_propagates_witness :
    HMM.get_absorption_state_scaling_factor (fun _ : Fin 1 => ((0 : ℝ) : LogR)) (fun _ => (0 : ℝ))
        0 = ⊥ ∧
      ((3 : ℝ) : LogR) + HMM.get_absorption_state_scaling_factor
        (fun _ : Fin 1 => ((0 : ℝ) : LogR)) (fun _ => (0 : ℝ)) 0 = ⊥ :=
  HMM.absorption_all_bot_propagates (fun _ : Fin 1 => ((0 : ℝ) : LogR)) (fun _ => (0 : ℝ)) 0 3
    (by
      intro j
      have hj : (j : ℕ) = 0 := by omega
      simp [HMM.final_log_c, sequence_mask, hj])


namespace HMM

/-- The hidden-state index after one iteration of the sampling loop of
HMM.sample: it advances by one when the switch decision fires at timestep t
and stays otherwise.  The decision stream abstracts both the stochastic
multinomial draw and the deterministic quantile rule of the code, since the
termination claim must hold regardless of the transition probabilities. -/
def next_z (switch : ℕ → Bool) (t z : ℕ) : ℕ := if switch t then z + 1 else z

/-- Intended loop control of the while loop of HMM.sample
(src/TTS/tts/layers/neural_hmm/hmm.py lines 309-346).  The loop as written
never runs: inside those lines the first iteration reads the unassigned
attribute self.decoder at line 315, the unbound local ar_mel_inputs at line
319 (first assigned only at line 326), and the unassigned flags
self.predict_means, self.deterministic_transition and
self.duration_quantile_threshold at lines 322, 332 and 335, so this models
the loop control those lines intend with the crashing per-iteration
computations abstracted away: each iteration advances the hidden-state index
via next_z, appends the index to the trace, and breaks when the index
reaches the state count N or the maximum-timestep budget is exhausted.  The
fuel argument carries the remaining budget, so fuel equals T minus the
current timestep t and the break test fuel = 0 after the pattern match is
the code's test that t equals T minus one.  Returns the number of iterations
performed and the visited-state trace. -/
def sample_loop (switch : ℕ → Bool) (N : ℕ) : ℕ → ℕ → ℕ → List ℕ → ℕ × List ℕ
  | 0, t, _, acc => (t, acc)
  | fuel + 1, t, z, acc =>
    if next_z switch t z = N ∨ fuel = 0 then (t + 1, acc ++ [next_z switch t z])
    else sample_loop switch N fuel (t + 1) (next_z switch t z) (acc ++ [next_z switch t z])

/-- Intended behaviour of HMM.sample with a provided maximum-timestep budget
T.  The source method raises AttributeError at line 304 on every call
(self.post_prenet_rnn_dim is never assigned; the init sets memory_rnn_dim,
and no subclass in src assigns it), so no call reaches the loop; this models
the run the method and the spec intend: the hidden state starts at zero with
the initial index already on the trace, and the loop runs with the full
budget. -/
def sample (switch : ℕ → Bool) (N T : ℕ) : ℕ × List ℕ :=
  sample_loop switch N T 0 0 [0]

theorem next_z_ge (switch : ℕ → Bool) (t z : ℕ) : z ≤ next_z switch t z := by
  rw [next_z]; split <;> omega

theorem next_z_le (switch : ℕ → Bool) (t z : ℕ) : next_z switch t z ≤ z + 1 := by
  rw [next_z]; split <;> omega

theorem sample_loop_iters_le (switch : ℕ → Bool) (N : ℕ) :
    ∀ (fuel t z : ℕ) (acc : List ℕ), (sample_loop switch N fuel t z acc).1 ≤ t + fuel := by
  intro fuel
  induction fuel with
  | zero => intro t z acc; simp [sample_loop]
  | succ fuel ih =>
      intro t z acc
      rw [sample_loop]
      split
      · show t + 1 ≤ t + (fuel + 1)
        omega
      · exact le_trans (ih (t + 1) _ _) (by omega)

theorem sample_loop_trace (switch : ℕ → Bool) (N : ℕ) :
    ∀ (fuel t z : ℕ) (acc : List ℕ), z < N → List.Chain' (· ≤ ·) acc →
      acc.getLast? = some z → (∀ x ∈ acc, x ≤ z) →
      List.Chain' (· ≤ ·) (sample_loop switch N fuel t z acc).2 ∧
        (∀ x ∈ (sample_loop switch N fuel t z acc).2, x ≤ N) ∧
        (∀ x ∈ (sample_loop switch N fuel t z acc).2.dropLast, x ≠ N) := by
  intro fuel
  induction fuel with
  | zero =>
      intro t z acc hz hchain _ hbound
      refine ⟨by simpa [sample_loop] using hchain, ?_, ?_⟩
      · intro x hx
        exact le_trans (hbound x (by simpa [sample_loop] using hx)) (le_of_lt hz)
      · intro x hx
        have hx' : x ∈ acc := (List.dropLast_prefix _).subset (by simpa [sample_loop] using hx)
        exact ne_of_lt (lt_of_le_of_lt (hbound x hx') hz)
  | succ fuel ih =>
      intro t z acc hz hchain hlast hbound
      rw [sample_loop]
      have hzz' : z ≤ next_z switch t z := next_z_ge switch t z
      have hz'le : next_z switch t z ≤ z + 1 := next_z_le switch t z
      have hchain' : List.Chain' (· ≤ ·) (acc ++ [next_z switch t z]) := by
        apply List.Chain'.append hchain (List.chain'_singleton _)
        intro x hx y hy
        rw [hlast, Option.mem_some_iff] at hx
        simp only [List.head?_cons, Option.mem_some_iff] at hy
        omega
      have hlast' : (acc ++ [next_z switch t z]).getLast? = some (next_z switch t z) :=
        List.getLast?_concat _
      have hbound' : ∀ x ∈ acc ++ [next_z switch t z], x ≤ next_z switch t z := by
        intro x hx
        rcases List.mem_append.1 hx with hx | hx
        · exact le_trans (hbound x hx) hzz'
        · simp at hx
          omega
      split
      · refine ⟨hchain', ?_, ?_⟩
        · intro x hx
          exact le_trans (hbound' x hx) (by omega)
        · intro x hx
          rw [List.dropLast_concat] at hx
          exact ne_of_lt (lt_of_le_of_lt (hbound x hx) hz)
      · have hz' : next_z switch t z < N := by
          rename_i hnot
          push_neg at hnot
          omega
        exact ih (t + 1) _ _ hz' hchain' hlast' hbound'

end HMM

/-- C4: the intended sampling loop (the source method crashes before and
inside its first iteration, see the sample and sample_loop definitions) with
a provided maximum-timestep budget T performs at most T iterations
regardless of the transition decisions, and it stops as soon as the
hidden-state index reaches the final state: the visited-state trace is
non-decreasing, bounded by the state count N, and the final state N can
appear only as the last element of the trace. -/
theorem HMM.sample_halts (switch : ℕ → Bool) (N T : ℕ) (hT : 1 ≤ T) (hN : 1 ≤ N) :
    (HMM.sample switch N T).1 ≤ T ∧
      List.Chain' (· ≤ ·) (HMM.sample switch N T).2 ∧
      (∀ x ∈ (HMM.sample switch N T).2, x ≤ N) ∧
      (∀ x ∈ (HMM.sample switch N T).2.dropLast, x ≠ N) := by
  have hTT := hT
  have h1 := HMM.sample_loop_iters_le switch N T 0 0 [0]
  have h2 := HMM.sample_loop_trace switch N T 0 0 [0] hN (List.chain'_singleton 0) rfl
    (by intro x hx; simp at hx; omega)
  exact ⟨by simpa [HMM.sample] using h1, h2.1, h2.2.1, h2.2.2⟩

/-- Witness for C4: budget five, two states, a decision stream that always
advances. -/
theorem HMM.sample_halts_witness :
    (HMM.sample (fun _ => true) 2 5).1 ≤ 5 ∧
      List.Chain' (· ≤ ·) (HMM.sample (fun _ => true) 2 5).2 ∧
      (∀ x ∈ (HMM.sample (fun _ => true) 2 5).2, x ≤ 2) ∧
      (∀ x ∈ (HMM.sample (fun _ => true) 2 5).2.dropLast, x ≠ 2) :=
  HMM.sample_halts (fun _ => true) 2 5 (by norm_num) (by norm_num)

namespace AlignTTS

/-- Embedding of AlignTTS.compute_log_probs (src/TTS/tts/models/align_tts.py
lines 104-115) for one batch item: the Gaussian alignment potential between
encoder position x and decoder frame yd, a mean over the feature axis of the
squared error scaled by the squared exponential of the log standard
deviation, minus half the mean log standard deviation. -/
noncomputable def compute_log_probs {tx ty nF : ℕ} (mu log_sigma : Fin tx → Fin nF → ℝ)
    (y : Fin ty → Fin nF → ℝ) : Fin tx → Fin ty → ℝ :=
  fun x yd =>
    -0.5 * ((∑ d, (y yd d - mu x d) ^ 2 / Real.exp (log_sigma x d) ^ 2) / (nF : ℝ)) -
      0.5 * ((∑ d, log_sigma x d) / (nF : ℝ))

/-- Modelled from the spec: a monotonic no-skip character-to-frame alignment
path between a valid encoder length tx and a valid decoder length ty, as
section 4.5 of the spec describes the paths searched by the monotonic
alignment search: non-decreasing in decoder time, starting at encoder
position zero, ending at the last valid encoder position, advancing by at
most one encoder position per decoder step. -/
def isMonotonicPath {tx ty : ℕ} (p : Fin ty → Fin tx) : Prop :=
  (∀ a b : Fin ty, a ≤ b → p a ≤ p b) ∧
    (∀ a : Fin ty, (a : ℕ) = 0 → (p a : ℕ) = 0) ∧
    (∀ a : Fin ty, (a : ℕ) = ty - 1 → (p a : ℕ) = tx - 1) ∧
    (∀ a b : Fin ty, (b : ℕ) = (a : ℕ) + 1 → (p b : ℕ) ≤ (p a : ℕ) + 1)

instance {tx ty : ℕ} : DecidablePred (@isMonotonicPath tx ty) := fun p => by
  unfold isMonotonicPath
  infer_instance

/-- The finite set of monotonic no-skip alignment paths. -/
def pathSet (tx ty : ℕ) : Finset (Fin ty → Fin tx) :=
  Finset.univ.filter (@isMonotonicPath tx ty)

theorem pathSet_nonempty {tx ty : ℕ} (h1 : 0 < tx) (h2 : tx ≤ ty) :
    (pathSet tx ty).Nonempty := by
  refine ⟨fun a => ⟨min (a : ℕ) (tx - 1), by omega⟩, ?_⟩
  rw [pathSet, Finset.mem_filter]
  refine ⟨Finset.mem_univ _, ?_, ?_, ?_, ?_⟩
  · intro a b hab
    have : (a : ℕ) ≤ (b : ℕ) := hab
    exact Fin.mk_le_mk.2 (by omega)
  · intro a ha
    show min (a : ℕ) (tx - 1) = 0
    omega
  · intro a ha
    show min (a : ℕ) (tx - 1) = tx - 1
    have : (a : ℕ) = ty - 1 := ha
    omega
  · intro a b hab
    show min (b : ℕ) (tx - 1) ≤ min (a : ℕ) (tx - 1) + 1
    omega

/-- Modelled from the spec: maximum_path of
TTS.tts.layers.glow_tts.monotonic_align is not under src; section 4.5 of the
spec describes it as finding the monotonic no-skip path maximizing the total
log-probability, so it is modelled as a maximizer of the summed alignment
potential over the set of monotonic no-skip paths. -/
noncomputable def maximum_path {tx ty : ℕ} (value : Fin tx → Fin ty → ℝ)
    (h : (pathSet tx ty).Nonempty) : Fin ty → Fin tx :=
  (Finset.exists_max_image (pathSet tx ty) (fun p => ∑ yd, value (p yd) yd) h).choose

theorem maximum_path_mem {tx ty : ℕ} (value : Fin tx → Fin ty → ℝ)
    (h : (pathSet tx ty).Nonempty) : maximum_path value h ∈ pathSet tx ty :=
  (Finset.exists_max_image (pathSet tx ty) (fun p => ∑ yd, value (p yd) yd) h).choose_spec.1

theorem maximum_path_is_max {tx ty : ℕ} (value : Fin tx → Fin ty → ℝ)
    (h : (pathSet tx ty).Nonempty) (q : Fin ty → Fin tx) (hq : q ∈ pathSet tx ty) :
    ∑ yd, value (q yd) yd ≤ ∑ yd, value (maximum_path value h yd) yd :=
  (Finset.exists_max_image (pathSet tx ty) (fun p => ∑ yd, value (p yd) yd) h).choose_spec.2 q hq

/-- The one-hot attention matrix of an alignment path, entry (x, yd) is one
exactly when the path assigns decoder frame yd to encoder position x. -/
noncomputable def align_attn {tx ty : ℕ} (p : Fin ty → Fin tx) : Fin tx → Fin ty → ℝ :=
  fun x yd => if p yd = x then 1 else 0

/-- Per-character duration counts: the row sums of the attention matrix over
the decoder axis, as dr_mas is computed in AlignTTS.compute_align_path. -/
noncomputable def dr_mas {tx ty : ℕ} (p : Fin ty → Fin tx) : Fin tx → ℝ :=
  fun x => ∑ yd, align_attn p x yd

/-- Embedding of AlignTTS.compute_align_path (src/TTS/tts/models/align_tts.py
lines 117-124) for one batch item restricted to its valid lengths: the
alignment potentials from compute_log_probs, the maximizing monotonic path,
and the per-character durations as the row sums of its attention matrix;
returns the pair of dr_mas and log_p. -/
noncomputable def compute_align_path {tx ty nF : ℕ} (mu log_sigma : Fin tx → Fin nF → ℝ)
    (y : Fin ty → Fin nF → ℝ) (h : (pathSet tx ty).Nonempty) :
    (Fin tx → ℝ) × (Fin tx → Fin ty → ℝ) :=
  (dr_mas (maximum_path (compute_log_probs mu log_sigma y) h),
    compute_log_probs mu log_sigma y)

end AlignTTS

/-- C5: the alignment path extracted by AlignTTS.compute_align_path is
non-decreasing in decoder time, starts at encoder position zero, ends at the
last valid encoder position, and the per-character duration counts dr_mas
(the row sums of the attention matrix) sum exactly to the valid decoder
length. -/
theorem AlignTTS.compute_align_path_monotone {tx ty nF : ℕ}
    (mu log_sigma : Fin tx → Fin nF → ℝ) (y : Fin ty → Fin nF → ℝ)
    (h1 : 0 < tx) (h2 : tx ≤ ty) :
    (∀ a b : Fin ty, a ≤ b →
        AlignTTS.maximum_path (AlignTTS.compute_log_probs mu log_sigma y)
          (AlignTTS.pathSet_nonempty h1 h2) a ≤
        AlignTTS.maximum_path (AlignTTS.compute_log_probs mu log_sigma y)
          (AlignTTS.pathSet_nonempty h1 h2) b) ∧
      (∀ a : Fin ty, (a : ℕ) = 0 →
        (AlignTTS.maximum_path (AlignTTS.compute_log_probs mu log_sigma y)
          (AlignTTS.pathSet_nonempty h1 h2) a : ℕ) = 0) ∧
      (∀ a : Fin ty, (a : ℕ) = ty - 1 →
        (AlignTTS.maximum_path (AlignTTS.compute_log_probs mu log_sigma y)
          (AlignTTS.pathSet_nonempty h1 h2) a : ℕ) = tx - 1) ∧
      ∑ x, (AlignTTS.compute_align_path mu log_sigma y
          (AlignTTS.pathSet_nonempty h1 h2)).1 x = (ty : ℝ) := by
  have hmem := AlignTTS.maximum_path_mem (AlignTTS.compute_log_probs mu log_sigma y)
    (AlignTTS.pathSet_nonempty h1 h2)
  rw [AlignTTS.pathSet, Finset.mem_filter] at hmem
  obtain ⟨-, hmono, hstart, hend, -⟩ := hmem
  refine ⟨hmono, hstart, hend, ?_⟩
  rw [AlignTTS.compute_align_path]
  show ∑ x, AlignTTS.dr_mas _ x = (ty : ℝ)
  unfold AlignTTS.dr_mas AlignTTS.align_attn
  rw [Finset.sum_comm]
  simp [Finset.sum_ite_eq]

/-- Witness for C5 at a concrete instance with one encoder position, two
decoder frames and one feature dimension. -/
theorem AlignTTS.compute_align_path_monotone_witness :
    (∀ a b : Fin 2, a ≤ b →
        AlignTTS.maximum_path (AlignTTS.compute_log_probs
            (fun _ _ : Fin 1 => (0 : ℝ)) (fun _ _ : Fin 1 => (0 : ℝ))
            (fun (_ : Fin 2) (_ : Fin 1) => (0 : ℝ)))
          (AlignTTS.pathSet_nonempty one_pos one_le_two) a ≤
        AlignTTS.maximum_path (AlignTTS.compute_log_probs
            (fun _ _ : Fin 1 => (0 : ℝ)) (fun _ _ : Fin 1 => (0 : ℝ))
            (fun (_ : Fin 2) (_ : Fin 1) => (0 : ℝ)))
          (AlignTTS.pathSet_nonempty one_pos one_le_two) b) ∧
      (∀ a : Fin 2, (a : ℕ) = 0 →
        (AlignTTS.maximum_path (AlignTTS.compute_log_probs
            (fun _ _ : Fin 1 => (0 : ℝ)) (fun _ _ : Fin 1 => (0 : ℝ))
            (fun (_ : Fin 2) (_ : Fin 1) => (0 : ℝ)))
          (AlignTTS.pathSet_nonempty one_pos one_le_two) a : ℕ) = 0) ∧
      (∀ a : Fin 2, (a : ℕ) = 2 - 1 →
        (AlignTTS.maximum_path (AlignTTS.compute_log_probs
            (fun _ _ : Fin 1 => (0 : ℝ)) (fun _ _ : Fin 1 => (0 : ℝ))
            (fun (_ : Fin 2) (_ : Fin 1) => (0 : ℝ)))
          (AlignTTS.pathSet_nonempty one_pos one_le_two) a : ℕ) = 1 - 1) ∧
      ∑ x, (AlignTTS.compute_align_path (fun _ _ : Fin 1 => (0 : ℝ))
          (fun _ _ : Fin 1 => (0 : ℝ)) (fun (_ : Fin 2) (_ : Fin 1) => (0 : ℝ))
          (AlignTTS.pathSet_nonempty one_pos one_le_two)).1 x = ((2 : ℕ) : ℝ) :=
  AlignTTS.compute_align_path_monotone (fun _ _ : Fin 1 => (0 : ℝ))
    (fun _ _ : Fin 1 => (0 : ℝ)) (fun (_ : Fin 2) (_ : Fin 1) => (0 : ℝ)) one_pos one_le_two

/-- Round to the nearest integer with ties to even, as torch.round rounds. -/
noncomputable def round_half_even (x : ℝ) : ℤ :=
  if Int.fract x = 1 / 2 then (if Even ⌊x⌋ then ⌊x⌋ else ⌊x⌋ + 1) else round x

theorem round_half_even_ge_one {x : ℝ} (hx : 1 ≤ x) : 1 ≤ round_half_even x := by
  have hfloor : (1 : ℤ) ≤ ⌊x⌋ := Int.le_floor.2 (by exact_mod_cast hx)
  rw [round_half_even]
  split
  · split <;> omega
  · rw [round_eq]
    have : (1 : ℤ) ≤ ⌊x + 1 / 2⌋ := Int.le_floor.2 (by push_cast; linarith)
    omega

namespace AlignTTS

/-- The value of the duration tensor in AlignTTS.format_durations before the
clamp and the round: exponential of the predicted log-duration minus one,
multiplied by the input mask and the length scale. -/
noncomputable def raw_duration {n : ℕ} (o_dr_log : Fin n → ℝ) (x_mask : Fin n → Bool)
    (length_scale : ℝ) : Fin n → ℝ :=
  fun i => (Real.exp (o_dr_log i) - 1) * (if x_mask i then (1 : ℝ) else 0) * length_scale

/-- Embedding of AlignTTS.format_durations (src/TTS/tts/models/align_tts.py
lines 150-154): every entry below one is clamped up to one, then the tensor
is rounded. -/
noncomputable def format_durations {n : ℕ} (o_dr_log : Fin n → ℝ) (x_mask : Fin n → Bool)
    (length_scale : ℝ) : Fin n → ℝ :=
  fun i =>
    ((round_half_even
        (if raw_duration o_dr_log x_mask length_scale i < 1 then 1
         else raw_duration o_dr_log x_mask length_scale i) : ℤ) : ℝ)

end AlignTTS

/-- C10: every entry of the tensor returned by AlignTTS.format_durations,
including entries at masked-out input positions whose raw value zero is
clamped up, is a whole number at least one; hence the total predicted
decoder length at inference is at least the number of (padded) input
positions. -/
theorem AlignTTS.format_durations_ge_one {n : ℕ} (o_dr_log : Fin n → ℝ)
    (x_mask : Fin n → Bool) (length_scale : ℝ) :
    (∀ i, ∃ k : ℤ, AlignTTS.format_durations o_dr_log x_mask length_scale i = (k : ℝ) ∧ 1 ≤ k) ∧
      (n : ℝ) ≤ ∑ i, AlignTTS.format_durations o_dr_log x_mask length_scale i := by
  have hterm : ∀ i, ∃ k : ℤ,
      AlignTTS.format_durations o_dr_log x_mask length_scale i = (k : ℝ) ∧ 1 ≤ k := by
    intro i
    refine ⟨round_half_even
      (if AlignTTS.raw_duration o_dr_log x_mask length_scale i < 1 then 1
       else AlignTTS.raw_duration o_dr_log x_mask length_scale i), rfl, ?_⟩
    apply round_half_even_ge_one
    split
    · exact le_refl 1
    · exact le_of_not_lt (by assumption)
  refine ⟨hterm, ?_⟩
  have hone : ∀ i ∈ Finset.univ, (1 : ℝ) ≤
      AlignTTS.format_durations o_dr_log x_mask length_scale i := by
    intro i _
    obtain ⟨k, hk, hk1⟩ := hterm i
    rw [hk]
    exact_mod_cast hk1
  calc (n : ℝ) = ∑ _i : Fin n, (1 : ℝ) := by simp
    _ ≤ ∑ i, AlignTTS.format_durations o_dr_log x_mask length_scale i :=
      Finset.sum_le_sum hone
